import Mathlib

/-!
Verification of the date-binning core of the Calendar visualization
(`src/frontend/src/metabase/visualizations/visualizations/Calendar.jsx`).

The embedding models `Calendar.render`'s binning pipeline (lines 267-297):
zero-seeded min/max folds, per-timestamp aggregation, the d3 v3
`d3.layout.histogram` with `.range([min, max]).bins(10)`, the reduce that
flattens histogram bins into a timestamp → bin-index map, and the anchor
selection; plus `Calendar.checkRenderable` (lines 93-111).

JS numbers are modelled as exact rationals (`ℚ`); timestamp dimension values
as integers (epoch-millisecond-style, matching the code's `number`
annotations on `minDate`/`maxDate`); `moment(x).toString()`, the grouping
key, is an abstract parameter `key : Int → String` so that every theorem
holds for the real (possibly non-injective) stringification.
-/

namespace Calendar

/-- A data row: `(dimensionValue, metricValue)` as used at
`row[dimensionIndex]` / `row[metricIndex]`. -/
structure Row where
  dim : Int
  metric : ℚ
deriving DecidableEq

/-- Line 267: `rows.reduce((max, row) => (max > row[metricIndex] ? max : row[metricIndex]), 0)`. -/
def maxValue (rows : List Row) : ℚ :=
  rows.foldl (fun max row => if max > row.metric then max else row.metric) 0

/-- Line 268: `rows.reduce((min, row) => (min < row[metricIndex] ? min : row[metricIndex]), 0)`. -/
def minValue (rows : List Row) : ℚ :=
  rows.foldl (fun min row => if min < row.metric then min else row.metric) 0

/-- Line 269: `rows.reduce((max, row) => (max > row[dimensionIndex] ? max : row[dimensionIndex]), 0)`. -/
def maxDate (rows : List Row) : Int :=
  rows.foldl (fun max row => if max > row.dim then max else row.dim) 0

/-- Line 270: `rows.reduce((min, row) => (min < row[dimensionIndex] ? min : row[dimensionIndex]), 0)`. -/
def minDate (rows : List Row) : Int :=
  rows.foldl (fun min row => if min < row.dim then min else row.dim) 0

/-- First value stored under a string key in an insertion-ordered
association list (a JS object with non-index keys). -/
def lookupKey (k : String) : List (String × β) → Option β
  | [] => none
  | e :: rest => if e.1 = k then some e.2 else lookupKey k rest

/-- `dates[date] += row[metricIndex]`: add `v` to the entry holding key `k`. -/
def incrKey : List (String × ℚ) → String → ℚ → List (String × ℚ)
  | [], _, _ => []
  | e :: rest, k, v => if e.1 = k then (e.1, e.2 + v) :: rest else e :: incrKey rest k v

/-- One step of the `dates` reduce (lines 273-280):
`if (!(date in dates)) dates[date] = 0; dates[date] += row[metricIndex]`. -/
def addRow (dates : List (String × ℚ)) (k : String) (v : ℚ) : List (String × ℚ) :=
  if (lookupKey k dates).isNone then incrKey (dates ++ [(k, 0)]) k v
  else incrKey dates k v

/-- Lines 272-281: group rows by the string form of the parsed timestamp
(`moment(row[dimensionIndex]).toString()`, abstracted as `key`) and sum the
metric values per group, in first-occurrence insertion order. -/
def aggregate (key : Int → String) (rows : List Row) : List (String × ℚ) :=
  rows.foldl (fun dates row => addRow dates (key row.dim) row.metric) []

/-- d3 v3 `d3.bisectRight` binary-search loop, with explicit structural fuel
(`hi - lo` bounds the number of iterations):
`while (lo < hi) { mid = lo + hi >>> 1; if (a[mid] > x) hi = mid; else lo = mid + 1 }`. -/
def bisectGo (a : List ℚ) (x : ℚ) : Nat → Nat → Nat → Nat
  | 0, lo, _ => lo
  | fuel + 1, lo, hi =>
    if lo < hi then
      if x < a.getD ((lo + hi) / 2) 0 then bisectGo a x fuel lo ((lo + hi) / 2)
      else bisectGo a x fuel ((lo + hi) / 2 + 1) hi
    else lo

/-- `d3.bisect(a, x, lo, hi)` (right bisector). -/
def bisectRight (a : List ℚ) (x : ℚ) (lo hi : Nat) : Nat :=
  bisectGo a x (hi - lo) lo hi

/-- d3 v3 `d3_layout_histogramBinFixed(range, n)`: the `n + 1` equally spaced
threshold values `m * i + b` with `b = range[0]`, `m = (range[1] - b) / n`. -/
def thresholds (mn mx : ℚ) (n : Nat) : List ℚ :=
  (List.range (n + 1)).map (fun (i : Nat) => (mx - mn) / (n : ℚ) * (i : ℚ) + mn)

/-- Histogram bin index of a value: `d3.bisect(thresholds, x, 1, m) - 1`. -/
def binIdx (mn mx : ℚ) (n : Nat) (x : ℚ) : Nat :=
  bisectRight (thresholds mn mx n) x 1 n - 1

/-- Lines 283-286 together with d3 v3 `d3.layout.histogram`: initialize `n`
empty bins, then push each entry whose value (`entry[1]`) lies inside
`[range[0], range[1]]` onto the bin selected by `d3.bisect`; values outside
the range are ignored. -/
def histogram (mn mx : ℚ) (n : Nat) (entries : List (String × ℚ)) :
    List (List (String × ℚ)) :=
  entries.foldl
    (fun bins e =>
      if mn ≤ e.2 ∧ e.2 ≤ mx then
        bins.set (binIdx mn mx n e.2) (bins.getD (binIdx mn mx n e.2) [] ++ [e])
      else bins)
    (List.replicate n [])

/-- JS object assignment `bins[entry[0]] = ix`: overwrite in place, or append
a fresh key at the end. -/
def setKey : List (String × Nat) → String → Nat → List (String × Nat)
  | [], k, v => [(k, v)]
  | e :: rest, k, v => if e.1 = k then (k, v) :: rest else e :: setKey rest k v

/-- Lines 288-291: `binsh.reduce((bins, bin, ix) => { bin.forEach((entry) =>
{ bins[entry[0]] = ix }); return bins; }, {})`, with the reduce index made
explicit. -/
def assignBins : Nat → List (List (String × ℚ)) → List (String × Nat) → List (String × Nat)
  | _, [], m => m
  | ix, bin :: rest, m =>
      assignBins (ix + 1) rest (bin.foldl (fun m e => setKey m e.1 ix) m)

/-- The `bins` object of line 288. -/
def binAssignment (hbins : List (List (String × ℚ))) : List (String × Nat) :=
  assignBins 0 hbins []

/-- The full timestamp → bin-index map computed by `render` (lines 267-291);
the bin count is hard-coded to `10` by `.bins(10)`. -/
def binsFor (key : Int → String) (rows : List Row) : List (String × Nat) :=
  binAssignment (histogram (minValue rows) (maxValue rows) 10 (aggregate key rows))

/-- Lines 294-297: `initial = settings["calendar.from_start_not_end"] ?
moment(minDate) : moment(maxDate)` (a valid epoch value is identified with
the moment wrapping it). -/
def initialAnchor (fromStartNotEnd : Bool) (rows : List Row) : Int :=
  if fromStartNotEnd then minDate rows else maxDate rows

/-- The spec's `computeBins(rows, binCount, fromStartNotEnd) →
(BinAssignment, AnchorSelection)` contract, as the code realizes it
(`binCount` is fixed at 10). -/
def computeBins (key : Int → String) (rows : List Row) (fromStartNotEnd : Bool) :
    List (String × Nat) × Int :=
  (binsFor key rows, initialAnchor fromStartNotEnd rows)

/-- The two error kinds thrown by `checkRenderable`. -/
inductive RenderError
  | minRows (minRows rowCount : Nat)
  | chartSettings (message : String)
deriving DecidableEq

/-- The settings consulted by `checkRenderable`: `settings["calendar.dimension"]`
and `settings["calendar.metric"]` (absent = `none`). -/
structure CalendarSettings where
  dimension : Option String
  metric : Option String

/-- Lines 93-111: `checkRenderable` throws `MinRowsError(1, 0)` when
`rows.length < 1`, else `ChartSettingsError` when either column setting is
missing, else returns normally. The thrown error is modelled as the
`Option RenderError` result. -/
def checkRenderable (rows : List Row) (settings : CalendarSettings) :
    Option RenderError :=
  if rows.length < 1 then some (RenderError.minRows 1 0)
  else if settings.dimension.isNone || settings.metric.isNone then
    some (RenderError.chartSettings "Which columns do you want to use?")
  else none

/-! ### Properties of the d3 bisector -/

theorem bisectGo_bounds (a : List ℚ) (x : ℚ) :
    ∀ (fuel lo hi : Nat), lo ≤ hi →
      lo ≤ bisectGo a x fuel lo hi ∧ bisectGo a x fuel lo hi ≤ hi := by
  intro fuel
  induction fuel with
  | zero => intro lo hi h; exact ⟨le_refl lo, h⟩
  | succ fuel ih =>
    intro lo hi h
    simp only [bisectGo]
    split
    · next hlt =>
      split
      · next =>
        have := ih lo ((lo + hi) / 2) (by omega)
        exact ⟨this.1, by omega⟩
      · next =>
        have := ih ((lo + hi) / 2 + 1) hi (by omega)
        exact ⟨by omega, this.2⟩
    · exact ⟨le_refl lo, h⟩

theorem bisectGo_eq (a : List ℚ) (x : ℚ) :
    ∀ (fuel lo hi r : Nat), hi - lo ≤ fuel → lo ≤ r → r ≤ hi →
      (∀ j, lo ≤ j → j < r → a.getD j 0 ≤ x) →
      (∀ j, r ≤ j → j < hi → x < a.getD j 0) →
      bisectGo a x fuel lo hi = r := by
  intro fuel
  induction fuel with
  | zero =>
    intro lo hi r hf h1 h2 _ _
    simp only [bisectGo]
    omega
  | succ fuel ih =>
    intro lo hi r hf h1 h2 hlow hhigh
    simp only [bisectGo]
    split
    · next hlt =>
      split
      · next hx =>
        have hrm : r ≤ (lo + hi) / 2 := by
          by_contra hc
          push_neg at hc
          exact absurd hx (not_lt.mpr (hlow _ (by omega) (by omega)))
        apply ih lo ((lo + hi) / 2) r (by omega) h1 hrm hlow
        intro j hj1 hj2
        exact hhigh j hj1 (by omega)
      · next hx =>
        have hrm : (lo + hi) / 2 + 1 ≤ r := by
          by_contra hc
          push_neg at hc
          exact hx (hhigh _ (by omega) (by omega))
        apply ih ((lo + hi) / 2 + 1) hi r (by omega) hrm h2 ?_ hhigh
        intro j hj1 hj2
        exact hlow j (by omega) hj2
    · omega

theorem bisectGo_mono (a : List ℚ) {x y : ℚ} (hxy : x ≤ y) :
    ∀ (fuel lo hi : Nat), lo ≤ hi →
      bisectGo a x fuel lo hi ≤ bisectGo a y fuel lo hi := by
  intro fuel
  induction fuel with
  | zero => intro lo hi _; exact le_refl _
  | succ fuel ih =>
    intro lo hi hle
    simp only [bisectGo]
    split
    · next hlt =>
      by_cases hy : y < a.getD ((lo + hi) / 2) 0
      · have hx : x < a.getD ((lo + hi) / 2) 0 := lt_of_le_of_lt hxy hy
        rw [if_pos hx, if_pos hy]
        exact ih lo ((lo + hi) / 2) (by omega)
      · by_cases hx : x < a.getD ((lo + hi) / 2) 0
        · rw [if_pos hx, if_neg hy]
          have hb1 := (bisectGo_bounds a x fuel lo ((lo + hi) / 2) (by omega)).2
          have hb2 := (bisectGo_bounds a y fuel ((lo + hi) / 2 + 1) hi (by omega)).1
          omega
        · rw [if_neg hx, if_neg hy]
          exact ih ((lo + hi) / 2 + 1) hi (by omega)
    · exact le_refl lo

theorem bisectRight_bounds (a : List ℚ) (x : ℚ) (lo hi : Nat) (h : lo ≤ hi) :
    lo ≤ bisectRight a x lo hi ∧ bisectRight a x lo hi ≤ hi :=
  bisectGo_bounds a x (hi - lo) lo hi h

theorem bisectRight_eq (a : List ℚ) (x : ℚ) (lo hi r : Nat) (h1 : lo ≤ r) (h2 : r ≤ hi)
    (hlow : ∀ j, lo ≤ j → j < r → a.getD j 0 ≤ x)
    (hhigh : ∀ j, r ≤ j → j < hi → x < a.getD j 0) :
    bisectRight a x lo hi = r :=
  bisectGo_eq a x (hi - lo) lo hi r (le_refl _) h1 h2 hlow hhigh

theorem bisectRight_mono (a : List ℚ) {x y : ℚ} (hxy : x ≤ y) (lo hi : Nat) (h : lo ≤ hi) :
    bisectRight a x lo hi ≤ bisectRight a y lo hi :=
  bisectGo_mono a hxy (hi - lo) lo hi h

/-! ### Properties of the fixed-width thresholds and the bin index -/

theorem thresholds_getD (mn mx : ℚ) (n : Nat) (j : Nat) (h : j < n + 1) :
    (thresholds mn mx n).getD j 0 = (mx - mn) / (n : ℚ) * (j : ℚ) + mn := by
  have hlen : j < (thresholds mn mx n).length := by
    rw [thresholds, List.length_map, List.length_range]
    omega
  rw [List.getD_eq_getElem _ _ hlen]
  simp only [thresholds, List.getElem_map, List.getElem_range]

theorem binIdx_lt (mn mx : ℚ) {n : Nat} (hn : 0 < n) (x : ℚ) : binIdx mn mx n x < n := by
  have h1 := (bisectRight_bounds (thresholds mn mx n) x 1 n hn).1
  have h2 := (bisectRight_bounds (thresholds mn mx n) x 1 n hn).2
  rw [binIdx]
  omega

theorem binIdx_mono (mn mx : ℚ) {n : Nat} (hn : 0 < n) {x y : ℚ} (hxy : x ≤ y) :
    binIdx mn mx n x ≤ binIdx mn mx n y := by
  have := bisectRight_mono (thresholds mn mx n) hxy 1 n hn
  rw [binIdx, binIdx]
  omega

theorem binIdx_max (mn mx : ℚ) {n : Nat} (hn : 0 < n) (h : mn ≤ mx) :
    binIdx mn mx n mx = n - 1 := by
  have hn' : (0 : ℚ) < (n : ℚ) := by exact_mod_cast hn
  have heq : bisectRight (thresholds mn mx n) mx 1 n = n := by
    apply bisectRight_eq (thresholds mn mx n) mx 1 n n hn (le_refl n)
    · intro j hj1 hj2
      rw [thresholds_getD mn mx n j (by omega)]
      have hw : 0 ≤ (mx - mn) / (n : ℚ) := div_nonneg (by linarith) hn'.le
      have hj : (j : ℚ) ≤ (n : ℚ) := by exact_mod_cast (by omega : j ≤ n)
      have hmul : (mx - mn) / (n : ℚ) * (j : ℚ) ≤ (mx - mn) / (n : ℚ) * (n : ℚ) :=
        mul_le_mul_of_nonneg_left hj hw
      have hcancel : (mx - mn) / (n : ℚ) * (n : ℚ) = mx - mn :=
        div_mul_cancel₀ _ hn'.ne'
      linarith
    · intro j hj1 hj2
      exact (by omega : False).elim
  rw [binIdx, heq]

theorem binIdx_boundary (mn mx : ℚ) {n i : Nat} (hn : 0 < n) (hmm : mn < mx)
    (h1 : 1 ≤ i) (h2 : i < n) :
    binIdx mn mx n ((mx - mn) / (n : ℚ) * (i : ℚ) + mn) = i := by
  have hn' : (0 : ℚ) < (n : ℚ) := by exact_mod_cast hn
  have hw : 0 < (mx - mn) / (n : ℚ) := div_pos (by linarith) hn'
  have heq : bisectRight (thresholds mn mx n)
      ((mx - mn) / (n : ℚ) * (i : ℚ) + mn) 1 n = i + 1 := by
    apply bisectRight_eq (thresholds mn mx n) _ 1 n (i + 1) (by omega) (by omega)
    · intro j hj1 hj2
      rw [thresholds_getD mn mx n j (by omega)]
      have hj : (j : ℚ) ≤ (i : ℚ) := by exact_mod_cast (by omega : j ≤ i)
      have := mul_le_mul_of_nonneg_left hj hw.le
      linarith
    · intro j hj1 hj2
      rw [thresholds_getD mn mx n j (by omega)]
      have hj : (i : ℚ) < (j : ℚ) := by exact_mod_cast (by omega : i < j)
      have := mul_lt_mul_of_pos_left hj hw
      linarith
  rw [binIdx, heq]
  omega

theorem binIdx_bot (mn mx : ℚ) {n : Nat} (hn : 0 < n) (hmm : mn < mx) :
    binIdx mn mx n mn = 0 := by
  have hn' : (0 : ℚ) < (n : ℚ) := by exact_mod_cast hn
  have hw : 0 < (mx - mn) / (n : ℚ) := div_pos (by linarith) hn'
  have heq : bisectRight (thresholds mn mx n) mn 1 n = 1 := by
    apply bisectRight_eq (thresholds mn mx n) mn 1 n 1 (le_refl 1) hn
    · intro j hj1 hj2
      exact (by omega : False).elim
    · intro j hj1 hj2
      rw [thresholds_getD mn mx n j (by omega)]
      have hj : (0 : ℚ) < (j : ℚ) := by exact_mod_cast (by omega : 0 < j)
      have := mul_pos hw hj
      linarith
  rw [binIdx, heq]

/-! ### Association-list lemmas -/

def keysOf (l : List (String × β)) : List String := l.map Prod.fst

theorem keysOf_cons (e : String × β) (l : List (String × β)) :
    keysOf (e :: l) = e.1 :: keysOf l := rfl

theorem keysOf_append (l1 l2 : List (String × β)) :
    keysOf (l1 ++ l2) = keysOf l1 ++ keysOf l2 :=
  List.map_append _ _ _

theorem mem_keysOf {l : List (String × β)} {k : String} {v : β} (h : (k, v) ∈ l) :
    k ∈ keysOf l :=
  List.mem_map_of_mem Prod.fst h

theorem lookupKey_eq_none {l : List (String × β)} {k : String} :
    lookupKey k l = none ↔ k ∉ keysOf l := by
  induction l with
  | nil => simp [lookupKey, keysOf]
  | cons e rest ih =>
    rw [lookupKey, keysOf_cons]
    by_cases he : e.1 = k
    · subst he
      simp
    · rw [if_neg he, ih]
      simp [Ne.symm he]

theorem lookupKey_mem {l : List (String × β)} {k : String} {v : β}
    (h : lookupKey k l = some v) : (k, v) ∈ l := by
  induction l with
  | nil => simp [lookupKey] at h
  | cons e rest ih =>
    rw [lookupKey] at h
    by_cases he : e.1 = k
    · rw [if_pos he] at h
      have hv := Option.some.inj h
      rw [List.mem_cons]
      left
      rw [← he, ← hv]
    · rw [if_neg he] at h
      exact List.mem_cons_of_mem _ (ih h)

theorem mem_lookupKey {l : List (String × β)} {k : String} {v : β}
    (hnd : (keysOf l).Nodup) (h : (k, v) ∈ l) : lookupKey k l = some v := by
  induction l with
  | nil => simp at h
  | cons e rest ih =>
    rw [keysOf_cons, List.nodup_cons] at hnd
    rw [List.mem_cons] at h
    rw [lookupKey]
    rcases h with h | h
    · subst h
      simp
    · rw [if_neg ?_]
      · exact ih hnd.2 h
      · intro he
        exact hnd.1 (he ▸ mem_keysOf h)

theorem keysOf_nodup_value_eq {l : List (String × β)} {k : String} {a b : β}
    (hnd : (keysOf l).Nodup) (ha : (k, a) ∈ l) (hb : (k, b) ∈ l) : a = b := by
  have h1 := mem_lookupKey hnd ha
  have h2 := mem_lookupKey hnd hb
  rw [h1] at h2
  exact Option.some.inj h2

theorem lookupKey_append_left {l1 l2 : List (String × β)} {k : String} {v : β}
    (h : lookupKey k l1 = some v) : lookupKey k (l1 ++ l2) = some v := by
  induction l1 with
  | nil => simp [lookupKey] at h
  | cons e rest ih =>
    rw [List.cons_append, lookupKey]
    rw [lookupKey] at h
    by_cases he : e.1 = k
    · rw [if_pos he] at h ⊢
      exact h
    · rw [if_neg he] at h ⊢
      exact ih h

theorem lookupKey_append_right {l1 l2 : List (String × β)} {k : String}
    (h : lookupKey k l1 = none) : lookupKey k (l1 ++ l2) = lookupKey k l2 := by
  induction l1 with
  | nil => simp
  | cons e rest ih =>
    rw [List.cons_append, lookupKey]
    rw [lookupKey] at h
    by_cases he : e.1 = k
    · rw [if_pos he] at h
      exact absurd h (by simp)
    · rw [if_neg he] at h ⊢
      exact ih h

/-! ### The zero-seeded min/max folds -/

theorem step_min (s x : ℚ) : (if s < x then s else x) = min s x := by
  rcases lt_trichotomy s x with h | h | h
  · rw [if_pos h, min_eq_left h.le]
  · subst h
    simp
  · rw [if_neg (not_lt.mpr h.le), min_eq_right h.le]

theorem step_max (s x : ℚ) : (if s > x then s else x) = max s x := by
  rcases lt_trichotomy x s with h | h | h
  · rw [if_pos h, max_eq_left h.le]
  · subst h
    simp
  · rw [if_neg (not_lt.mpr h.le), max_eq_right h.le]

theorem minValue_eq_foldl (rows : List Row) :
    minValue rows = (rows.map Row.metric).foldl min 0 := by
  rw [minValue, List.foldl_map]
  congr 1
  funext s r
  exact step_min s r.metric

theorem maxValue_eq_foldl (rows : List Row) :
    maxValue rows = (rows.map Row.metric).foldl max 0 := by
  rw [maxValue, List.foldl_map]
  congr 1
  funext s r
  exact step_max s r.metric

theorem foldl_min_le (l : List ℚ) : ∀ s : ℚ, l.foldl min s ≤ s := by
  induction l with
  | nil => intro s; exact le_refl s
  | cons x rest ih =>
    intro s
    rw [List.foldl_cons]
    exact le_trans (ih (min s x)) (min_le_left s x)

theorem le_foldl_max (l : List ℚ) : ∀ s : ℚ, s ≤ l.foldl max s := by
  induction l with
  | nil => intro s; exact le_refl s
  | cons x rest ih =>
    intro s
    rw [List.foldl_cons]
    exact le_trans (le_max_left s x) (ih (max s x))

theorem minValue_nonpos (rows : List Row) : minValue rows ≤ 0 := by
  rw [minValue_eq_foldl]
  exact foldl_min_le _ 0

theorem maxValue_nonneg (rows : List Row) : 0 ≤ maxValue rows := by
  rw [maxValue_eq_foldl]
  exact le_foldl_max _ 0

theorem minValue_le_maxValue (rows : List Row) : minValue rows ≤ maxValue rows :=
  le_trans (minValue_nonpos rows) (maxValue_nonneg rows)

theorem maxValue_all_neg (rows : List Row) (h : ∀ r ∈ rows, r.metric < 0) :
    maxValue rows = 0 := by
  rw [maxValue]
  induction rows with
  | nil => rfl
  | cons r rest ih =>
    rw [List.foldl_cons, if_pos (h r (List.mem_cons_self r rest))]
    exact ih (fun x hx => h x (List.mem_cons_of_mem r hx))

theorem minValue_all_pos (rows : List Row) (h : ∀ r ∈ rows, 0 < r.metric) :
    minValue rows = 0 := by
  rw [minValue]
  induction rows with
  | nil => rfl
  | cons r rest ih =>
    rw [List.foldl_cons, if_pos (h r (List.mem_cons_self r rest))]
    exact ih (fun x hx => h x (List.mem_cons_of_mem r hx))

theorem foldl_min_const (v : ℚ) :
    ∀ (l : List Row) (s : ℚ), (∀ r ∈ l, r.metric = v) → l ≠ [] →
      l.foldl (fun min row => if min < row.metric then min else row.metric) s = min s v := by
  intro l
  induction l with
  | nil => intro s _ h; exact absurd rfl h
  | cons r rest ih =>
    intro s hall _
    have hr : r.metric = v := hall r (List.mem_cons_self r rest)
    rw [List.foldl_cons, hr, step_min]
    by_cases hrest : rest = []
    · subst hrest
      rfl
    · rw [ih (min s v) (fun x hx => hall x (List.mem_cons_of_mem r hx)) hrest,
        min_assoc, min_self]

theorem foldl_max_const (v : ℚ) :
    ∀ (l : List Row) (s : ℚ), (∀ r ∈ l, r.metric = v) → l ≠ [] →
      l.foldl (fun max row => if max > row.metric then max else row.metric) s = max s v := by
  intro l
  induction l with
  | nil => intro s _ h; exact absurd rfl h
  | cons r rest ih =>
    intro s hall _
    have hr : r.metric = v := hall r (List.mem_cons_self r rest)
    rw [List.foldl_cons, hr, step_max]
    by_cases hrest : rest = []
    · subst hrest
      rfl
    · rw [ih (max s v) (fun x hx => hall x (List.mem_cons_of_mem r hx)) hrest,
        max_assoc, max_self]

theorem minValue_all_eq {v : ℚ} (rows : List Row) (hne : rows ≠ [])
    (hall : ∀ r ∈ rows, r.metric = v) : minValue rows = min 0 v :=
  foldl_min_const v rows 0 hall hne

theorem maxValue_all_eq {v : ℚ} (rows : List Row) (hne : rows ≠ [])
    (hall : ∀ r ∈ rows, r.metric = v) : maxValue rows = max 0 v :=
  foldl_max_const v rows 0 hall hne

/-! ### Aggregation lemmas -/

theorem keysOf_incrKey (m : List (String × ℚ)) (k : String) (v : ℚ) :
    keysOf (incrKey m k v) = keysOf m := by
  induction m with
  | nil => rfl
  | cons e rest ih =>
    rw [incrKey]
    by_cases he : e.1 = k
    · rw [if_pos he, keysOf_cons, keysOf_cons]
    · rw [if_neg he, keysOf_cons, keysOf_cons, ih]

theorem incrKey_append_fresh {m : List (String × ℚ)} {k : String} (x v : ℚ)
    (h : k ∉ keysOf m) : incrKey (m ++ [(k, x)]) k v = m ++ [(k, x + v)] := by
  induction m with
  | nil => simp [incrKey]
  | cons e rest ih =>
    rw [keysOf_cons, List.mem_cons] at h
    push_neg at h
    rw [List.cons_append, List.cons_append, incrKey,
      if_neg (fun he => h.1 he.symm), ih h.2]

theorem addRow_not_mem {m : List (String × ℚ)} {k : String} (v : ℚ) (h : k ∉ keysOf m) :
    addRow m k v = m ++ [(k, 0 + v)] := by
  have hn : (lookupKey k m).isNone = true := by
    rw [lookupKey_eq_none.mpr h]
    rfl
  rw [addRow, if_pos hn, incrKey_append_fresh 0 v h]

theorem addRow_mem {m : List (String × ℚ)} {k : String} (v : ℚ) (h : k ∈ keysOf m) :
    addRow m k v = incrKey m k v := by
  have hn : ¬ (lookupKey k m).isNone = true := by
    rw [Option.isNone_iff_eq_none, lookupKey_eq_none]
    exact fun hc => hc h
  rw [addRow, if_neg hn]

theorem keysOf_addRow (m : List (String × ℚ)) (k : String) (v : ℚ) :
    keysOf (addRow m k v) = if k ∈ keysOf m then keysOf m else keysOf m ++ [k] := by
  by_cases h : k ∈ keysOf m
  · rw [addRow_mem v h, keysOf_incrKey, if_pos h]
  · rw [addRow_not_mem v h, keysOf_append, if_neg h]
    rfl

theorem keysOf_addRow_nodup {m : List (String × ℚ)} {k : String} (v : ℚ)
    (h : (keysOf m).Nodup) : (keysOf (addRow m k v)).Nodup := by
  rw [keysOf_addRow]
  by_cases hk : k ∈ keysOf m
  · rw [if_pos hk]
    exact h
  · rw [if_neg hk]
    simp [List.nodup_append, h, hk]

theorem aggregate_foldl_nodup (key : Int → String) :
    ∀ (rows : List Row) (acc : List (String × ℚ)), (keysOf acc).Nodup →
      (keysOf (rows.foldl (fun dates row => addRow dates (key row.dim) row.metric) acc)).Nodup := by
  intro rows
  induction rows with
  | nil => intro acc h; exact h
  | cons r rest ih =>
    intro acc h
    rw [List.foldl_cons]
    exact ih _ (keysOf_addRow_nodup _ h)

theorem aggregate_nodup (key : Int → String) (rows : List Row) :
    (keysOf (aggregate key rows)).Nodup :=
  aggregate_foldl_nodup key rows [] List.nodup_nil

/-- Sum of the per-timestamp totals. -/
def sumSnd (l : List (String × ℚ)) : ℚ := (l.map Prod.snd).sum

theorem sumSnd_cons (e : String × ℚ) (l : List (String × ℚ)) :
    sumSnd (e :: l) = e.2 + sumSnd l := by
  rw [sumSnd, sumSnd, List.map_cons, List.sum_cons]

theorem sumSnd_append (l1 l2 : List (String × ℚ)) :
    sumSnd (l1 ++ l2) = sumSnd l1 + sumSnd l2 := by
  rw [sumSnd, sumSnd, sumSnd, List.map_append, List.sum_append]

theorem sumSnd_incrKey {m : List (String × ℚ)} {k : String} (v : ℚ) (h : k ∈ keysOf m) :
    sumSnd (incrKey m k v) = sumSnd m + v := by
  induction m with
  | nil => simp [keysOf] at h
  | cons e rest ih =>
    rw [incrKey]
    by_cases he : e.1 = k
    · rw [if_pos he, sumSnd_cons, sumSnd_cons]
      ring
    · rw [keysOf_cons, List.mem_cons] at h
      rcases h with h | h
      · exact absurd h.symm he
      · rw [if_neg he, sumSnd_cons, sumSnd_cons, ih h]
        ring

theorem sumSnd_addRow (m : List (String × ℚ)) (k : String) (v : ℚ) :
    sumSnd (addRow m k v) = sumSnd m + v := by
  by_cases h : k ∈ keysOf m
  · rw [addRow_mem v h, sumSnd_incrKey v h]
  · rw [addRow_not_mem v h, sumSnd_append, sumSnd_cons]
    rw [sumSnd, sumSnd]
    simp

theorem aggregate_foldl_sum (key : Int → String) :
    ∀ (rows : List Row) (acc : List (String × ℚ)),
      sumSnd (rows.foldl (fun dates row => addRow dates (key row.dim) row.metric) acc)
        = sumSnd acc + (rows.map Row.metric).sum := by
  intro rows
  induction rows with
  | nil => intro acc; simp [sumSnd]
  | cons r rest ih =>
    intro acc
    rw [List.foldl_cons, ih, sumSnd_addRow, List.map_cons, List.sum_cons]
    ring

theorem mem_incrKey {m : List (String × ℚ)} {k : String} {v : ℚ} {e : String × ℚ}
    (h : e ∈ incrKey m k v) : e ∈ m ∨ ∃ t, (e.1, t) ∈ m ∧ e.2 = t + v := by
  induction m with
  | nil => simp [incrKey] at h
  | cons f rest ih =>
    rw [incrKey] at h
    by_cases hf : f.1 = k
    · rw [if_pos hf] at h
      rcases List.mem_cons.mp h with h | h
      · subst h
        right
        refine ⟨f.2, ?_, rfl⟩
        simp
      · exact Or.inl (List.mem_cons_of_mem f h)
    · rw [if_neg hf] at h
      rcases List.mem_cons.mp h with h | h
      · exact Or.inl (h ▸ List.mem_cons_self f rest)
      · rcases ih h with h | ⟨t, ht, hv⟩
        · exact Or.inl (List.mem_cons_of_mem f h)
        · exact Or.inr ⟨t, List.mem_cons_of_mem f ht, hv⟩

theorem aggregate_foldl_scaled (key : Int → String) (v : ℚ) :
    ∀ (rows : List Row) (acc : List (String × ℚ)),
      (∀ r ∈ rows, r.metric = v) →
      (∀ e ∈ acc, ∃ c : Nat, 1 ≤ c ∧ e.2 = (c : ℚ) * v) →
      ∀ e ∈ rows.foldl (fun dates row => addRow dates (key row.dim) row.metric) acc,
        ∃ c : Nat, 1 ≤ c ∧ e.2 = (c : ℚ) * v := by
  intro rows
  induction rows with
  | nil => intro acc _ hacc; exact hacc
  | cons r rest ih =>
    intro acc hall hacc
    rw [List.foldl_cons]
    apply ih _ (fun x hx => hall x (List.mem_cons_of_mem r hx))
    intro e he
    have hv : r.metric = v := hall r (List.mem_cons_self r rest)
    by_cases hk : key r.dim ∈ keysOf acc
    · rw [addRow_mem _ hk] at he
      rcases mem_incrKey he with h | ⟨t, ht, hw⟩
      · exact hacc e h
      · rcases hacc (e.1, t) ht with ⟨c, hc1, hc2⟩
        have hc2' : t = (c : ℚ) * v := hc2
        refine ⟨c + 1, by omega, ?_⟩
        rw [hw, hc2', hv]
        push_cast
        ring
    · rw [addRow_not_mem _ hk] at he
      rcases List.mem_append.mp he with h | h
      · exact hacc e h
      · rw [List.mem_singleton] at h
        refine ⟨1, le_refl 1, ?_⟩
        rw [h]
        simp [hv]

theorem aggregate_scaled {key : Int → String} {rows : List Row} {v : ℚ}
    (hall : ∀ r ∈ rows, r.metric = v) {k : String} {t : ℚ}
    (h : (k, t) ∈ aggregate key rows) : ∃ c : Nat, 1 ≤ c ∧ t = (c : ℚ) * v :=
  aggregate_foldl_scaled key v rows [] hall (by simp) (k, t) h

/-! ### Characterizing the histogram as index-wise filtering -/

theorem set_map_range {n : Nat} (g : Nat → List (String × ℚ)) (idx : Nat) (_hidx : idx < n)
    (w : List (String × ℚ)) :
    ((List.range n).map g).set idx w
      = (List.range n).map (fun b => if idx = b then w else g b) := by
  apply List.ext_getElem
  · rw [List.length_set, List.length_map, List.length_map]
  · intro j h1 h2
    simp only [List.getElem_set, List.getElem_map, List.getElem_range]

theorem histogram_foldl_eq (mn mx : ℚ) {n : Nat} (hn : 0 < n) :
    ∀ (entries : List (String × ℚ)) (g : Nat → List (String × ℚ)),
      entries.foldl
        (fun bins e =>
          if mn ≤ e.2 ∧ e.2 ≤ mx then
            bins.set (binIdx mn mx n e.2) (bins.getD (binIdx mn mx n e.2) [] ++ [e])
          else bins)
        ((List.range n).map g)
      = (List.range n).map
          (fun b => g b ++ entries.filter
            (fun e => decide (mn ≤ e.2 ∧ e.2 ≤ mx) && decide (binIdx mn mx n e.2 = b))) := by
  intro entries
  induction entries with
  | nil =>
    intro g
    rw [List.foldl_nil]
    apply List.map_congr_left
    intro b _
    rw [List.filter_nil, List.append_nil]
  | cons e rest ih =>
    intro g
    rw [List.foldl_cons]
    by_cases hin : mn ≤ e.2 ∧ e.2 ≤ mx
    · rw [if_pos hin]
      have hlt := binIdx_lt mn mx hn e.2
      have hgetD : ((List.range n).map g).getD (binIdx mn mx n e.2) []
          = g (binIdx mn mx n e.2) := by
        rw [List.getD_eq_getElem _ _ (by rw [List.length_map, List.length_range]; exact hlt)]
        rw [List.getElem_map, List.getElem_range]
      rw [hgetD,
        set_map_range g (binIdx mn mx n e.2) hlt (g (binIdx mn mx n e.2) ++ [e]), ih]
      apply List.map_congr_left
      intro b _
      rw [List.filter_cons]
      by_cases hb : binIdx mn mx n e.2 = b
      · rw [if_pos hb,
          if_pos (by simp [hin, hb] :
            (decide (mn ≤ e.2 ∧ e.2 ≤ mx) && decide (binIdx mn mx n e.2 = b)) = true),
          hb, List.append_assoc, List.singleton_append]
      · rw [if_neg hb, if_neg (by simp [hb])]
    · rw [if_neg hin, ih]
      apply List.map_congr_left
      intro b _
      rw [List.filter_cons, if_neg (by simp [hin])]

theorem histogram_eq (mn mx : ℚ) {n : Nat} (hn : 0 < n) (entries : List (String × ℚ)) :
    histogram mn mx n entries
      = (List.range n).map
          (fun b => entries.filter
            (fun e => decide (mn ≤ e.2 ∧ e.2 ≤ mx) && decide (binIdx mn mx n e.2 = b))) := by
  have h0 : (List.replicate n ([] : List (String × ℚ)))
      = (List.range n).map (fun _ => []) := by
    rw [List.map_const', List.length_range]
  rw [histogram, h0, histogram_foldl_eq mn mx hn entries]
  apply List.map_congr_left
  intro b _
  rw [List.nil_append]

/-! ### Flattening histogram bins into the assignment object -/

theorem setKey_fresh {m : List (String × Nat)} {k : String} (v : Nat) (h : k ∉ keysOf m) :
    setKey m k v = m ++ [(k, v)] := by
  induction m with
  | nil => rfl
  | cons e rest ih =>
    rw [keysOf_cons, List.mem_cons] at h
    push_neg at h
    rw [setKey, if_neg (fun he => h.1 he.symm), List.cons_append, ih h.2]

theorem foldl_setKey_fresh (ix : Nat) :
    ∀ (bin : List (String × ℚ)) (m : List (String × Nat)),
      (keysOf bin).Nodup → (∀ e ∈ bin, e.1 ∉ keysOf m) →
      bin.foldl (fun m e => setKey m e.1 ix) m = m ++ bin.map (fun e => (e.1, ix)) := by
  intro bin
  induction bin with
  | nil => intro m _ _; rw [List.foldl_nil, List.map_nil, List.append_nil]
  | cons e rest ih =>
    intro m hnd hfresh
    rw [keysOf_cons, List.nodup_cons] at hnd
    rw [List.foldl_cons, setKey_fresh ix (hfresh e (List.mem_cons_self e rest))]
    rw [ih (m ++ [(e.1, ix)]) hnd.2 ?_]
    · rw [List.map_cons, List.append_assoc, List.singleton_append]
    · intro f hf
      rw [keysOf_append, List.mem_append]
      push_neg
      refine ⟨hfresh f (List.mem_cons_of_mem e hf), ?_⟩
      intro hc
      have : f.1 = e.1 := by simpa [keysOf] using hc
      exact hnd.1 (this ▸ mem_keysOf hf)

/-- The assignment list produced from a list of bins starting at a given
index, when no key collisions occur. -/
def flatFrom : Nat → List (List (String × ℚ)) → List (String × Nat)
  | _, [] => []
  | ix, bin :: rest => bin.map (fun e => (e.1, ix)) ++ flatFrom (ix + 1) rest

theorem keysOf_map_pair (bin : List (String × ℚ)) (ix : Nat) :
    keysOf (bin.map (fun e => (e.1, ix))) = keysOf bin := by
  rw [keysOf, keysOf, List.map_map]
  rfl

theorem assignBins_eq :
    ∀ (hbins : List (List (String × ℚ))) (ix : Nat) (m : List (String × Nat)),
      (∀ bin ∈ hbins, (keysOf bin).Nodup) →
      List.Pairwise (fun b1 b2 => ∀ e1 ∈ b1, ∀ e2 ∈ b2, e1.1 ≠ e2.1) hbins →
      (∀ bin ∈ hbins, ∀ e ∈ bin, e.1 ∉ keysOf m) →
      assignBins ix hbins m = m ++ flatFrom ix hbins := by
  intro hbins
  induction hbins with
  | nil => intro ix m _ _ _; rw [assignBins, flatFrom, List.append_nil]
  | cons bin rest ih =>
    intro ix m hnd hpw hfresh
    rw [List.pairwise_cons] at hpw
    rw [assignBins, flatFrom,
      foldl_setKey_fresh ix bin m (hnd bin (List.mem_cons_self bin rest))
        (hfresh bin (List.mem_cons_self bin rest))]
    rw [ih (ix + 1) (m ++ bin.map (fun e => (e.1, ix)))
      (fun b hb => hnd b (List.mem_cons_of_mem bin hb)) hpw.2 ?_]
    · rw [List.append_assoc]
    · intro b hb e he
      rw [keysOf_append, List.mem_append]
      push_neg
      refine ⟨hfresh b (List.mem_cons_of_mem bin hb) e he, ?_⟩
      intro hc
      rw [keysOf_map_pair] at hc
      rcases List.mem_map.mp hc with ⟨f, hf, hfe⟩
      exact absurd hfe (hpw.1 b hb f hf e he)

theorem binAssignment_eq (hbins : List (List (String × ℚ)))
    (hnd : ∀ bin ∈ hbins, (keysOf bin).Nodup)
    (hpw : List.Pairwise (fun b1 b2 => ∀ e1 ∈ b1, ∀ e2 ∈ b2, e1.1 ≠ e2.1) hbins) :
    binAssignment hbins = flatFrom 0 hbins := by
  rw [binAssignment,
    assignBins_eq hbins 0 [] hnd hpw (by intro bin _ e _; simp [keysOf]),
    List.nil_append]

theorem lookupKey_map_pair_none {bin : List (String × ℚ)} {k : String} (ix : Nat)
    (h : ∀ e ∈ bin, e.1 ≠ k) : lookupKey k (bin.map (fun e => (e.1, ix))) = none := by
  induction bin with
  | nil => rfl
  | cons e rest ih =>
    rw [List.map_cons, lookupKey, if_neg (h e (List.mem_cons_self e rest))]
    exact ih (fun f hf => h f (List.mem_cons_of_mem e hf))

theorem lookupKey_map_pair_some {bin : List (String × ℚ)} {k : String} (ix : Nat)
    (h : ∃ e ∈ bin, e.1 = k) : lookupKey k (bin.map (fun e => (e.1, ix))) = some ix := by
  induction bin with
  | nil => simp at h
  | cons e rest ih =>
    rw [List.map_cons, lookupKey]
    by_cases he : e.1 = k
    · rw [if_pos he]
    · rw [if_neg he]
      apply ih
      rcases h with ⟨f, hf, hfk⟩
      rcases List.mem_cons.mp hf with hf | hf
      · exact absurd (hf ▸ hfk) he
      · exact ⟨f, hf, hfk⟩

theorem lookupKey_flatFrom :
    ∀ (hbins : List (List (String × ℚ))) (i b0 : Nat) (k : String),
      (∀ j bin, j < b0 → hbins[j]? = some bin → ∀ e ∈ bin, e.1 ≠ k) →
      (∃ bin, hbins[b0]? = some bin ∧ ∃ e ∈ bin, e.1 = k) →
      lookupKey k (flatFrom i hbins) = some (i + b0) := by
  intro hbins
  induction hbins with
  | nil =>
    intro i b0 k _ hex
    rcases hex with ⟨bin, hb, _⟩
    simp at hb
  | cons bin rest ih =>
    intro i b0 k hno hex
    rw [flatFrom]
    cases b0 with
    | zero =>
      rcases hex with ⟨bin', hb', hex'⟩
      rw [List.getElem?_cons_zero] at hb'
      obtain rfl : bin = bin' := Option.some.inj hb'
      rw [lookupKey_append_left (lookupKey_map_pair_some i hex'), Nat.add_zero]
    | succ b0 =>
      have hnone : lookupKey k (bin.map (fun e => (e.1, i))) = none :=
        lookupKey_map_pair_none i
          (hno 0 bin (by omega) (by rw [List.getElem?_cons_zero]))
      rw [lookupKey_append_right hnone,
        ih (i + 1) b0 k
          (fun j b hj hget => hno (j + 1) b (by omega)
            (by rw [List.getElem?_cons_succ]; exact hget))
          (by rcases hex with ⟨b, hb, he⟩
              rw [List.getElem?_cons_succ] at hb
              exact ⟨b, hb, he⟩)]
      congr 1
      omega

theorem mem_flatFrom :
    ∀ (hbins : List (List (String × ℚ))) (i : Nat) (k : String) (b : Nat),
      (k, b) ∈ flatFrom i hbins →
      ∃ bin, i ≤ b ∧ hbins[b - i]? = some bin ∧ ∃ t, (k, t) ∈ bin := by
  intro hbins
  induction hbins with
  | nil => intro i k b h; simp [flatFrom] at h
  | cons bin rest ih =>
    intro i k b h
    rw [flatFrom] at h
    rcases List.mem_append.mp h with h | h
    · rcases List.mem_map.mp h with ⟨e, he, heq⟩
      have hk : e.1 = k := congrArg Prod.fst heq
      have hb : i = b := congrArg Prod.snd heq
      refine ⟨bin, by omega, ?_, ⟨e.2, ?_⟩⟩
      · rw [show b - i = 0 by omega, List.getElem?_cons_zero]
      · rw [← hk]
        simpa using he
    · rcases ih (i + 1) k b h with ⟨bin', hib, hget, ht⟩
      refine ⟨bin', by omega, ?_, ht⟩
      rw [show b - i = (b - (i + 1)) + 1 by omega, List.getElem?_cons_succ]
      exact hget

/-! ### The key ↦ bin-index correspondence for the full pipeline -/

theorem histogram_bins_nodup (mn mx : ℚ) {n : Nat} (hn : 0 < n)
    {entries : List (String × ℚ)} (hnd : (keysOf entries).Nodup) :
    ∀ bin ∈ histogram mn mx n entries, (keysOf bin).Nodup := by
  intro bin hb
  rw [histogram_eq mn mx hn] at hb
  rcases List.mem_map.mp hb with ⟨b, _, rfl⟩
  exact List.Nodup.sublist (List.Sublist.map Prod.fst (List.filter_sublist entries)) hnd

theorem histogram_bins_pairwise (mn mx : ℚ) {n : Nat} (hn : 0 < n)
    {entries : List (String × ℚ)} (hnd : (keysOf entries).Nodup) :
    List.Pairwise (fun b1 b2 => ∀ e1 ∈ b1, ∀ e2 ∈ b2, e1.1 ≠ e2.1)
      (histogram mn mx n entries) := by
  rw [histogram_eq mn mx hn, List.pairwise_map]
  apply List.Pairwise.imp ?_ (List.pairwise_lt_range n)
  intro b1 b2 hlt e1 he1 e2 he2 hk
  rw [List.mem_filter] at he1 he2
  have hq1 := he1.2
  have hq2 := he2.2
  simp only [Bool.and_eq_true, decide_eq_true_eq] at hq1 hq2
  have hv : e1.2 = e2.2 := by
    apply keysOf_nodup_value_eq (k := e1.1) hnd
    · simpa using he1.1
    · rw [hk]
      simpa using he2.1
  rw [← hq1.2, ← hq2.2, hv] at hlt
  exact lt_irrefl _ hlt

theorem lookup_binsFor {key : Int → String} {rows : List Row} {k : String} {t : ℚ}
    (hmem : (k, t) ∈ aggregate key rows)
    (h1 : minValue rows ≤ t) (h2 : t ≤ maxValue rows) :
    lookupKey k (binsFor key rows)
      = some (binIdx (minValue rows) (maxValue rows) 10 t) := by
  have hn : (0 : Nat) < 10 := by omega
  have hnd := aggregate_nodup key rows
  rw [binsFor, binAssignment_eq _ (histogram_bins_nodup _ _ hn hnd)
    (histogram_bins_pairwise _ _ hn hnd), histogram_eq _ _ hn]
  have hb0 := binIdx_lt (minValue rows) (maxValue rows) hn t
  rw [lookupKey_flatFrom _ 0 (binIdx (minValue rows) (maxValue rows) 10 t) k ?_ ?_]
  · rw [Nat.zero_add]
  · intro j bin hj hget e he hek
    rw [List.getElem?_map, List.getElem?_range (by omega), Option.map_some'] at hget
    obtain rfl := Option.some.inj hget
    rw [List.mem_filter] at he
    have hq := he.2
    simp only [Bool.and_eq_true, decide_eq_true_eq] at hq
    have hv : e.2 = t := by
      apply keysOf_nodup_value_eq (k := k) hnd
      · rw [← hek]
        simpa using he.1
      · exact hmem
    rw [hv] at hq
    omega
  · refine ⟨(aggregate key rows).filter
        (fun e => decide (minValue rows ≤ e.2 ∧ e.2 ≤ maxValue rows) &&
          decide (binIdx (minValue rows) (maxValue rows) 10 e.2
            = binIdx (minValue rows) (maxValue rows) 10 t)), ?_, ⟨(k, t), ?_, rfl⟩⟩
    · rw [List.getElem?_map, List.getElem?_range hb0, Option.map_some']
    · rw [List.mem_filter]
      refine ⟨hmem, ?_⟩
      simp [h1, h2]

theorem mem_binsFor {key : Int → String} {rows : List Row} {k : String} {b : Nat}
    (h : (k, b) ∈ binsFor key rows) :
    ∃ t, (k, t) ∈ aggregate key rows ∧ minValue rows ≤ t ∧ t ≤ maxValue rows ∧
      b = binIdx (minValue rows) (maxValue rows) 10 t := by
  have hn : (0 : Nat) < 10 := by omega
  have hnd := aggregate_nodup key rows
  rw [binsFor, binAssignment_eq _ (histogram_bins_nodup _ _ hn hnd)
    (histogram_bins_pairwise _ _ hn hnd), histogram_eq _ _ hn] at h
  rcases mem_flatFrom _ 0 k b h with ⟨bin, _, hget, t, ht⟩
  rw [Nat.sub_zero, List.getElem?_map] at hget
  by_cases hb : b < 10
  · rw [List.getElem?_range hb, Option.map_some'] at hget
    obtain rfl := Option.some.inj hget
    rw [List.mem_filter] at ht
    have hq := ht.2
    simp only [Bool.and_eq_true, decide_eq_true_eq] at hq
    exact ⟨t, ht.1, hq.1.1, hq.1.2, hq.2.symm⟩
  · rw [List.getElem?_eq_none (by rw [List.length_range]; omega), Option.map_none'] at hget
    exact absurd hget (by simp)

theorem binsFor_unique {key : Int → String} {rows : List Row} {k : String} {t : ℚ}
    (hmem : (k, t) ∈ aggregate key rows)
    (h1 : minValue rows ≤ t) (h2 : t ≤ maxValue rows) :
    ∃! b, (k, b) ∈ binsFor key rows := by
  refine ⟨binIdx (minValue rows) (maxValue rows) 10 t,
    lookupKey_mem (lookup_binsFor hmem h1 h2), ?_⟩
  intro b hb
  rcases mem_binsFor hb with ⟨t', hmem', _, _, hbi⟩
  have : t' = t := keysOf_nodup_value_eq (aggregate_nodup key rows) hmem' hmem
  rw [hbi, this]

/-! ### Claim C1: bin coverage -/

/-- C1, counterexample: two rows sharing timestamp 0 with metric 1 each.
The single distinct key "0" aggregates to total 2, which exceeds
`maxValue = 1` (computed over per-row metrics), so the d3 histogram drops
it: the BinAssignment is empty and the key appears in no bin at all,
refuting "every distinct timestamp key appears in exactly one bin index". -/
theorem C1_counterexample :
    aggregate (fun d => toString d) [⟨0, 1⟩, ⟨0, 1⟩] = [("0", 2)] ∧
    binsFor (fun d => toString d) [⟨0, 1⟩, ⟨0, 1⟩] = [] := by
  refine ⟨?_, ?_⟩
  · with_unfolding_all rfl
  · with_unfolding_all rfl

/-- C1, amended: every aggregated entry whose total lies within the
zero-seeded per-row range `[minValue, maxValue]` appears in exactly one bin
index in the BinAssignment; totals outside that range (possible only when
repeated timestamps make a summed total escape the per-row min/max) are
silently dropped by the d3 histogram. -/
theorem C1_bin_coverage {key : Int → String} {rows : List Row} {k : String} {t : ℚ}
    (hmem : (k, t) ∈ aggregate key rows)
    (h1 : minValue rows ≤ t) (h2 : t ≤ maxValue rows) :
    ∃! b, (k, b) ∈ binsFor key rows :=
  binsFor_unique hmem h1 h2

/-- C1, witness: for rows (0 ↦ 1), (1 ↦ 3) the key "0" (total 1, inside
the range [0, 3]) is assigned exactly one bin. -/
theorem C1_bin_coverage_witness :
    (("0" : String), (1 : ℚ)) ∈ aggregate (fun d => toString d) [⟨0, 1⟩, ⟨1, 3⟩] ∧
    (∃! b, (("0" : String), b) ∈ binsFor (fun d => toString d) [⟨0, 1⟩, ⟨1, 3⟩]) :=
  ⟨by with_unfolding_all decide,
   C1_bin_coverage (t := 1) (by with_unfolding_all decide)
     (by with_unfolding_all decide) (by with_unfolding_all decide)⟩

/-! ### Claim C2: aggregation correctness -/

/-- C2: for every input row sequence, the sum of `total` over all aggregated
entries equals the sum of the metric values over all input rows. -/
theorem C2_aggregation_sum (key : Int → String) (rows : List Row) :
    sumSnd (aggregate key rows) = (rows.map Row.metric).sum := by
  rw [aggregate, aggregate_foldl_sum key rows []]
  simp [sumSnd]

/-! ### Claim C3: zero-seeded range -/

/-- C3: `minValue`/`maxValue` are folds over the original rows seeded with 0,
so they equal `min`/`max` folded from 0 over the metric values; hence all
metric values negative forces `maxValue = 0`, and all positive forces
`minValue = 0`. -/
theorem C3_zero_seeded_range (rows : List Row) :
    minValue rows = (rows.map Row.metric).foldl min 0 ∧
    maxValue rows = (rows.map Row.metric).foldl max 0 ∧
    ((∀ r ∈ rows, r.metric < 0) → maxValue rows = 0) ∧
    ((∀ r ∈ rows, 0 < r.metric) → minValue rows = 0) :=
  ⟨minValue_eq_foldl rows, maxValue_eq_foldl rows,
   maxValue_all_neg rows, minValue_all_pos rows⟩

/-- C3, witness: an all-negative row set has `maxValue = 0` and an
all-positive one has `minValue = 0`. -/
theorem C3_zero_seeded_range_witness :
    maxValue [⟨0, -1⟩] = 0 ∧ minValue [⟨0, 2⟩] = 0 :=
  ⟨(C3_zero_seeded_range [⟨0, -1⟩]).2.2.1 (by with_unfolding_all decide),
   (C3_zero_seeded_range [⟨0, 2⟩]).2.2.2 (by with_unfolding_all decide)⟩

/-! ### Claim C4: histogram boundary policy -/

/-- C4, counterexample: rows (0 ↦ -5), (1 ↦ 0), (2 ↦ 5) give range [-5, 5]
with thresholds -5, -4, …, 5. The entry "1" with total 0 sits exactly on the
interior boundary between bins 4 and 5, and the code assigns it bin 5 — the
higher-indexed bin — not the lower-indexed bin 4 the claim demands. -/
theorem C4_counterexample :
    lookupKey "1" (binsFor (fun d => toString d) [⟨0, -5⟩, ⟨1, 0⟩, ⟨2, 5⟩]) ≠ some 4 ∧
    lookupKey "1" (binsFor (fun d => toString d) [⟨0, -5⟩, ⟨1, 0⟩, ⟨2, 5⟩]) = some 5 := by
  refine ⟨?_, ?_⟩
  · with_unfolding_all decide
  · with_unfolding_all rfl

/-- C4, amended: bins are half-open `[lo, hi)` with the final bin closed: an
aggregated total exactly on an interior boundary `minValue + width * i`
(1 ≤ i ≤ 9) is assigned the HIGHER-indexed of the two adjacent bins, namely
bin i, the one whose lower edge it is; and a total equal to `maxValue` is
assigned the last bin (index 9). -/
theorem C4_boundary_policy {key : Int → String} {rows : List Row} {k : String} {t : ℚ}
    (hmem : (k, t) ∈ aggregate key rows)
    (hlt : minValue rows < maxValue rows) :
    (∀ i : Nat, 1 ≤ i → i < 10 →
      t = (maxValue rows - minValue rows) / 10 * (i : ℚ) + minValue rows →
      lookupKey k (binsFor key rows) = some i) ∧
    (t = maxValue rows → lookupKey k (binsFor key rows) = some 9) := by
  have hcast : ((10 : Nat) : ℚ) = (10 : ℚ) := by norm_num
  constructor
  · intro i hi1 hi2 ht
    have hw : 0 < (maxValue rows - minValue rows) / 10 :=
      div_pos (by linarith) (by norm_num)
    have hi10 : (i : ℚ) ≤ 10 := by exact_mod_cast hi2.le
    have hi0 : (0 : ℚ) ≤ (i : ℚ) := by positivity
    have hcancel : (maxValue rows - minValue rows) / 10 * 10
        = maxValue rows - minValue rows :=
      div_mul_cancel₀ _ (by norm_num)
    have h1 : minValue rows ≤ t := by
      have := mul_le_mul_of_nonneg_left hi0 hw.le
      nlinarith
    have h2 : t ≤ maxValue rows := by
      have := mul_le_mul_of_nonneg_left hi10 hw.le
      nlinarith
    rw [lookup_binsFor hmem h1 h2]
    congr 1
    rw [ht]
    have := binIdx_boundary (minValue rows) (maxValue rows)
      (n := 10) (i := i) (by norm_num) hlt hi1 hi2
    rw [hcast] at this
    exact this
  · intro ht
    rw [lookup_binsFor hmem (ht ▸ minValue_le_maxValue rows) (ht ▸ le_refl t)]
    congr 1
    rw [ht]
    exact binIdx_max (minValue rows) (maxValue rows) (by norm_num) hlt.le

/-- C4, witness: the boundary entry of the counterexample rows is assigned
bin 5 by the amended rule with i = 5. -/
theorem C4_boundary_policy_witness :
    lookupKey "4" (binsFor (fun d => toString d) [⟨3, -5⟩, ⟨4, 0⟩, ⟨5, 5⟩]) = some 5 :=
  (@C4_boundary_policy (fun d => toString d) [⟨3, -5⟩, ⟨4, 0⟩, ⟨5, 5⟩] "4" 0
      (by with_unfolding_all decide) (by with_unfolding_all decide)).1
    5 (by norm_num) (by norm_num) (by with_unfolding_all decide)

/-! ### Claim C5: degenerate range -/

/-- C5, counterexample: the single row (0 ↦ 5) has all metric values equal,
yet its aggregated entry is assigned bin index 9 (the last bin), not bin 0:
the zero-seeded fold gives range [0, 5], the total 5 equals `maxValue`, and
the maximum lands in the closed last bin. -/
theorem C5_counterexample :
    (("0" : String), 9) ∈ binsFor (fun d => toString d) [⟨0, 5⟩] ∧
    ¬ (("0" : String), 0) ∈ binsFor (fun d => toString d) [⟨0, 5⟩] := by
  refine ⟨?_, ?_⟩
  · with_unfolding_all decide
  · with_unfolding_all decide

/-- C5, amended: for a non-empty row sequence whose metric values all equal
`v`, every entry present in the BinAssignment gets one common bin — bin 0
when `v` is negative (range [v, 0], totals sit on the lower edge), and bin 9
when `v` is non-negative (range [0, v], totals sit on `maxValue`, which goes
to the closed last bin); entries whose summed total escapes the range are
dropped. -/
theorem C5_degenerate_range {key : Int → String} {rows : List Row} {v : ℚ}
    {k : String} {b : Nat}
    (hne : rows ≠ []) (hall : ∀ r ∈ rows, r.metric = v)
    (hmem : (k, b) ∈ binsFor key rows) :
    (v < 0 → b = 0) ∧ (0 ≤ v → b = 9) := by
  rcases mem_binsFor hmem with ⟨t, hagg, h1, h2, hbi⟩
  rcases aggregate_scaled hall hagg with ⟨c, hc1, hc2⟩
  have hmin := minValue_all_eq rows hne hall
  have hmax := maxValue_all_eq rows hne hall
  constructor
  · intro hv
    have hmin' : minValue rows = v := by rw [hmin, min_eq_right hv.le]
    have hmax' : maxValue rows = 0 := by rw [hmax, max_eq_left hv.le]
    have hc : c = 1 := by
      by_contra hc'
      have h2c : (2 : ℚ) ≤ (c : ℚ) := by exact_mod_cast (by omega : 2 ≤ c)
      rw [hmin', hc2] at h1
      nlinarith
    rw [hbi, hmin', hmax', hc2, hc]
    push_cast
    rw [one_mul]
    exact binIdx_bot v 0 (by norm_num) hv
  · intro hv
    have hmin' : minValue rows = 0 := by rw [hmin, min_eq_left hv]
    have hmax' : maxValue rows = v := by rw [hmax, max_eq_right hv]
    have ht : t = v := by
      rcases eq_or_lt_of_le hv with hv0 | hv0
      · rw [hc2, ← hv0, mul_zero]
      · have hc : c = 1 := by
          by_contra hc'
          have h2c : (2 : ℚ) ≤ (c : ℚ) := by exact_mod_cast (by omega : 2 ≤ c)
          rw [hmax', hc2] at h2
          nlinarith
        rw [hc2, hc]
        push_cast
        rw [one_mul]
    rw [hbi, hmin', hmax', ht, binIdx_max 0 v (by norm_num) hv]

/-- C5, witness: two rows with common negative value -2 both land in bin 0. -/
theorem C5_degenerate_range_witness :
    (("0" : String), 0) ∈ binsFor (fun d => toString d) [⟨0, -2⟩, ⟨1, -2⟩] ∧
    (0 : Nat) = 0 :=
  ⟨by with_unfolding_all decide,
   (@C5_degenerate_range (fun d => toString d) [⟨0, -2⟩, ⟨1, -2⟩] (-2) "0" 0
      (by decide)
      (by with_unfolding_all decide) (by with_unfolding_all decide)).1 (by norm_num)⟩

/-! ### Claim C6: worked example -/

/-- C6, counterexample: for the single row ("2020-05-05" as epoch-ms
1588636800000, metric 7) the sole entry is NOT assigned bin 0 as the claim
states. -/
theorem C6_counterexample :
    lookupKey "1588636800000"
      (binsFor (fun d => toString d) [⟨1588636800000, 7⟩]) ≠ some 0 := by
  with_unfolding_all decide

/-- C6, amended: for the single row ("2020-05-05", 7) with the fixed bin
count 10, the BinAssignment maps the sole timestamp key to bin index 9: the
zero-seeded range is [0, 7] and the total 7 equals `maxValue`, which is
assigned the closed last bin. -/
theorem C6_worked_example :
    binsFor (fun d => toString d) [⟨1588636800000, 7⟩] = [("1588636800000", 9)] := by
  with_unfolding_all rfl

/-! ### Claim C7: anchor selection toggling -/

/-- C7: `computeBins` returns the zero-seeded `minDate` as anchor when
`fromStartNotEnd` is true and the zero-seeded `maxDate` when it is false,
and the two anchors agree exactly when `minDate = maxDate`. -/
theorem C7_anchor_toggle (key : Int → String) (rows : List Row) :
    (computeBins key rows true).2 = minDate rows ∧
    (computeBins key rows false).2 = maxDate rows ∧
    ((computeBins key rows true).2 = (computeBins key rows false).2 ↔
      minDate rows = maxDate rows) :=
  ⟨rfl, rfl, Iff.rfl⟩

/-! ### Claim C8: bin monotonicity -/

/-- C8: for two aggregated entries of the same invocation that are both
present in the BinAssignment, a strictly smaller total receives a
less-or-equal bin index. -/
theorem C8_monotonicity {key : Int → String} {rows : List Row} {k1 k2 : String}
    {t1 t2 : ℚ} {b1 b2 : Nat}
    (h1 : (k1, t1) ∈ aggregate key rows) (h2 : (k2, t2) ∈ aggregate key rows)
    (hb1 : (k1, b1) ∈ binsFor key rows) (hb2 : (k2, b2) ∈ binsFor key rows)
    (hlt : t1 < t2) : b1 ≤ b2 := by
  rcases mem_binsFor hb1 with ⟨u1, hm1, _, _, he1⟩
  rcases mem_binsFor hb2 with ⟨u2, hm2, _, _, he2⟩
  have hu1 : u1 = t1 := keysOf_nodup_value_eq (aggregate_nodup key rows) hm1 h1
  have hu2 : u2 = t2 := keysOf_nodup_value_eq (aggregate_nodup key rows) hm2 h2
  rw [he1, he2, hu1, hu2]
  exact binIdx_mono _ _ (by norm_num) hlt.le

/-- C8, witness: totals 1 < 3 receive bins 3 ≤ 9. -/
theorem C8_monotonicity_witness :
    (("0" : String), 3) ∈ binsFor (fun d => toString d) [⟨0, 1⟩, ⟨1, 3⟩] ∧
    (("1" : String), 9) ∈ binsFor (fun d => toString d) [⟨0, 1⟩, ⟨1, 3⟩] ∧
    (3 : Nat) ≤ 9 :=
  ⟨by with_unfolding_all decide, by with_unfolding_all decide,
   @C8_monotonicity (fun d => toString d) [⟨0, 1⟩, ⟨1, 3⟩] "0" "1" 1 3 3 9
     (by with_unfolding_all decide) (by with_unfolding_all decide)
     (by with_unfolding_all decide) (by with_unfolding_all decide)
     (by norm_num)⟩

/-! ### Claim C9: pre-invocation validation -/

/-- C9: `checkRenderable` raises `MinRowsError(1, 0)` exactly when fewer than
one row is present; it raises a `ChartSettingsError` exactly when at least a
row is present but the dimension or metric column setting is missing; and it
raises nothing when neither condition holds. -/
theorem C9_checkRenderable (rows : List Row) (s : CalendarSettings) :
    (checkRenderable rows s = some (RenderError.minRows 1 0) ↔ rows.length < 1) ∧
    ((∃ msg, checkRenderable rows s = some (RenderError.chartSettings msg)) ↔
      (1 ≤ rows.length ∧ (s.dimension = none ∨ s.metric = none))) ∧
    (1 ≤ rows.length → s.dimension ≠ none → s.metric ≠ none →
      checkRenderable rows s = none) := by
  refine ⟨?_, ?_, ?_⟩
  · constructor
    · intro h
      by_contra hr
      rw [checkRenderable, if_neg hr] at h
      by_cases hd : (s.dimension.isNone || s.metric.isNone) = true
      · rw [if_pos hd] at h
        exact absurd (Option.some.inj h) (by simp)
      · rw [if_neg hd] at h
        exact absurd h (by simp)
    · intro hr
      rw [checkRenderable, if_pos hr]
  · constructor
    · rintro ⟨msg, hmsg⟩
      rw [checkRenderable] at hmsg
      by_cases hr : rows.length < 1
      · rw [if_pos hr] at hmsg
        exact absurd (Option.some.inj hmsg) (by simp)
      · rw [if_neg hr] at hmsg
        by_cases hd : (s.dimension.isNone || s.metric.isNone) = true
        · refine ⟨by omega, ?_⟩
          simpa [Option.isNone_iff_eq_none] using hd
        · rw [if_neg hd] at hmsg
          exact absurd hmsg (by simp)
    · rintro ⟨hlen, hmiss⟩
      have hr : ¬ rows.length < 1 := by omega
      have hd : (s.dimension.isNone || s.metric.isNone) = true := by
        rcases hmiss with h | h <;> simp [h]
      exact ⟨_, by rw [checkRenderable, if_neg hr, if_pos hd]⟩
  · intro hlen hdim hmet
    rw [checkRenderable, if_neg (by omega), if_neg ?_]
    simp [Option.isNone_iff_eq_none, hdim, hmet]

/-- C9, witness: one row and both columns selected yields no error. -/
theorem C9_checkRenderable_witness :
    checkRenderable [⟨0, 1⟩] ⟨some "d", some "m"⟩ = none :=
  (C9_checkRenderable [⟨0, 1⟩] ⟨some "d", some "m"⟩).2.2
    (by norm_num) (by simp) (by simp)

/-! ### Claim C10: bin indices stay in 0..9 -/

/-- C10: the bin count is hard-coded to 10, so every bin index stored in the
BinAssignment returned by `computeBins` is at most 9. -/
theorem C10_bin_index_range {key : Int → String} {rows : List Row} {fs : Bool}
    {k : String} {b : Nat}
    (h : (k, b) ∈ (computeBins key rows fs).1) : b ≤ 9 := by
  have h' : (k, b) ∈ binsFor key rows := h
  rcases mem_binsFor h' with ⟨t, _, _, _, hbi⟩
  have := binIdx_lt (minValue rows) (maxValue rows) (show (0 : Nat) < 10 by norm_num) t
  omega

/-- C10, witness: the single entry of rows [(0, 3)] gets bin 9 ≤ 9. -/
theorem C10_bin_index_range_witness :
    (("0" : String), 9) ∈ (computeBins (fun d => toString d) [⟨0, 3⟩] true).1 ∧
    (9 : Nat) ≤ 9 :=
  ⟨by with_unfolding_all decide,
   @C10_bin_index_range (fun d => toString d) [⟨0, 3⟩] true "0" 9
     (by with_unfolding_all decide)⟩

end Calendar
